import Mathlib

/-!
Verification of the ProTaskApp daily-log tracker (src/app.py).

Calendar dates are modelled as integers (day numbers): consecutive calendar
days are consecutive integers, which matches the calendar-date arithmetic of
the source (`rrule.DAILY` iteration, `(end - start).days`).

The remote Data Store tables (`tasks`, `logs`, `docs`) are modelled as lists
of row structures.  The store operations the source issues through the
supabase client are modelled with their documented semantics:

* `insert` appends a row;
* `update ... eq(col, v)` maps over the rows, rewriting exactly the supplied
  columns of the matching rows;
* `upsert(payload, on_conflict=key)` inserts a fresh row when no row has the
  payload's natural key, otherwise rewrites exactly the supplied non-key
  columns of the conflicting row (columns absent from the payload keep their
  stored values; on a fresh insert absent columns get the schema defaults,
  `progress=""` and `percent=0` for `logs`);
* the Blob Store is an association list from path to byte content, with
  overwriting `upload`.
-/

/-- A row of the `logs` table: `logs(id, task_id, log_date, progress, percent)`,
unique on `(task_id, log_date)`. -/
structure LogRow where
  id : Nat
  task_id : Nat
  log_date : Int
  progress : String
  percent : Int
deriving Repr, DecidableEq

/-- A row of the `tasks` table: `tasks(id, task_name, start_date, end_date, updated_at)`. -/
structure TaskRow where
  id : Nat
  task_name : String
  start_date : Int
  end_date : Int
  updated_at : Nat
deriving Repr, DecidableEq

/-- A row of the `docs` table: `docs(id, log_id, filename, path)`,
unique on `(log_id, path)`. -/
structure DocRow where
  id : Nat
  log_id : Nat
  filename : String
  path : String
deriving Repr, DecidableEq

/-- The `logs` table. -/
abbrev LogsTable := List LogRow

/-- Does row `r` have the natural key `(tid, d)`? -/
def logKey (r : LogRow) (tid : Nat) (d : Int) : Bool :=
  r.task_id == tid && r.log_date == d

/-- `select("*").eq("task_id", tid).eq("log_date", d).single()`: the first row
with the natural key. -/
def findByKey (tbl : LogsTable) (tid : Nat) (d : Int) : Option LogRow :=
  tbl.find? (fun r => logKey r tid d)

/-- All rows belonging to a task (`select("*").eq("task_id", tid)`). -/
def rowsFor (tbl : LogsTable) (tid : Nat) : LogsTable :=
  tbl.filter (fun r => r.task_id == tid)

/-- `logs.upsert({task_id, log_date, progress, percent}, on_conflict="task_id,log_date")`
(src/app.py lines 61-66): all four columns are supplied, so a conflicting row
has its `progress` and `percent` rewritten, and a fresh row is appended
otherwise.  `nid` is the id the store assigns to a fresh row. -/
def upsertLogFull (tbl : LogsTable) (nid tid : Nat) (d : Int) (prog : String)
    (pct : Int) : LogsTable :=
  if tbl.any (fun r => logKey r tid d) then
    tbl.map (fun r => if logKey r tid d then
      { r with progress := prog, percent := pct } else r)
  else
    tbl ++ [⟨nid, tid, d, prog, pct⟩]

/-- `logs.upsert({task_id, log_date}, on_conflict="task_id,log_date")`
(src/app.py lines 141-144): only the key columns are supplied, so a conflict
rewrites nothing and a miss inserts a row with the schema defaults
`progress=""`, `percent=0`. -/
def upsertLogKeyOnly (tbl : LogsTable) (nid tid : Nat) (d : Int) : LogsTable :=
  if tbl.any (fun r => logKey r tid d) then
    tbl
  else
    tbl ++ [⟨nid, tid, d, "", 0⟩]

/-- `logs.update({progress, percent}).eq("id", rid)` (src/app.py line 158). -/
def updateLogById (tbl : LogsTable) (rid : Nat) (prog : String) (pct : Int) :
    LogsTable :=
  tbl.map (fun r => if r.id == rid then
    { r with progress := prog, percent := pct } else r)

/-- The Date Range Expander: `rrule.rrule(rrule.DAILY, dtstart=s, until=e)`
(src/app.py line 60) yields the calendar dates `s, s+1, ..., e` (empty when
`e < s`). -/
def expand (s e : Int) : List Int :=
  (List.range (e - s + 1).toNat).map (fun (i : Nat) => s + (i : Int))

/-- The daily-rows loop of the Create Task handler (src/app.py lines 60-67):
one full upsert per date, with `progress=""` and `percent=0`; the store
assigns consecutive fresh ids starting at `nid`. -/
def runDailyUpserts (tbl : LogsTable) (nid tid : Nat) : List Int → LogsTable
  | [] => tbl
  | d :: ds => runDailyUpserts (upsertLogFull tbl nid tid d "" 0) (nid + 1) tid ds

/-- Log materialization at task creation: upsert one row per day of
`expand s e` (src/app.py lines 59-67). -/
def createTaskLogs (tbl : LogsTable) (nid tid : Nat) (s e : Int) : LogsTable :=
  runDailyUpserts tbl nid tid (expand s e)

/-- The default rows the creation loop writes: one per date, ids consecutive
from `nid`, `progress=""`, `percent=0`. -/
def mkDefaultRows (nid tid : Nat) : List Int → LogsTable
  | [] => []
  | d :: ds => ⟨nid, tid, d, "", 0⟩ :: mkDefaultRows (nid + 1) tid ds

/-- The date, notes and percent of a row (the data the spec talks about,
ignoring the store-assigned surrogate id). -/
def proj (r : LogRow) : Int × String × Int :=
  (r.log_date, r.progress, r.percent)

-- ### Basic lemmas about `expand`

theorem expand_length (s e : Int) : (expand s e).length = (e - s + 1).toNat := by
  simp only [expand, List.length_map, List.length_range]

theorem expand_getElem (s e : Int) (i : Nat) (h : i < (expand s e).length) :
    (expand s e)[i] = s + i := by
  simp only [expand, List.length_map, List.length_range] at h
  simp only [expand, List.getElem_map, List.getElem_range]

theorem expand_mem (s e d : Int) : d ∈ expand s e ↔ s ≤ d ∧ d ≤ e := by
  simp only [expand, List.mem_map, List.mem_range]
  constructor
  · rintro ⟨i, hi, rfl⟩
    omega
  · rintro ⟨h1, h2⟩
    exact ⟨(d - s).toNat, by omega, by omega⟩

theorem expand_nodup (s e : Int) : (expand s e).Nodup := by
  refine List.Nodup.map ?_ (List.nodup_range _)
  intro a b hab
  simp only at hab
  omega

-- ### The creation loop inserts exactly the default rows

theorem runDailyUpserts_fresh (ds : List Int) : ∀ (tbl : LogsTable) (nid tid : Nat),
    (∀ d ∈ ds, tbl.any (fun r => logKey r tid d) = false) → ds.Nodup →
    runDailyUpserts tbl nid tid ds = tbl ++ mkDefaultRows nid tid ds := by
  induction ds with
  | nil => intro tbl nid tid _ _; simp [runDailyUpserts, mkDefaultRows]
  | cons d ds ih =>
    intro tbl nid tid hfresh hnd
    have hhead : tbl.any (fun r => logKey r tid d) = false :=
      hfresh d (List.mem_cons_self d ds)
    have hnd' : ds.Nodup := (List.nodup_cons.mp hnd).2
    have hdmem : d ∉ ds := (List.nodup_cons.mp hnd).1
    have hup : upsertLogFull tbl nid tid d "" 0 = tbl ++ [⟨nid, tid, d, "", 0⟩] := by
      simp [upsertLogFull, hhead]
    have hrest : ∀ d' ∈ ds,
        (tbl ++ [(⟨nid, tid, d, "", 0⟩ : LogRow)]).any (fun r => logKey r tid d') = false := by
      intro d' hd'
      have h1 : tbl.any (fun r => logKey r tid d') = false :=
        hfresh d' (List.mem_cons_of_mem d hd')
      have hne : d ≠ d' := fun h => hdmem (h ▸ hd')
      rw [List.any_append, h1]
      simp [logKey, hne]
    calc runDailyUpserts tbl nid tid (d :: ds)
        = runDailyUpserts (tbl ++ [⟨nid, tid, d, "", 0⟩]) (nid + 1) tid ds := by
          simp [runDailyUpserts, hup]
      _ = (tbl ++ [⟨nid, tid, d, "", 0⟩]) ++ mkDefaultRows (nid + 1) tid ds :=
          ih _ _ _ hrest hnd'
      _ = tbl ++ mkDefaultRows nid tid (d :: ds) := by
          simp [mkDefaultRows, List.append_assoc]

theorem rowsFor_mkDefaultRows (ds : List Int) : ∀ (nid tid : Nat),
    rowsFor (mkDefaultRows nid tid ds) tid = mkDefaultRows nid tid ds := by
  induction ds with
  | nil => intro nid tid; simp [mkDefaultRows, rowsFor]
  | cons d ds ih =>
    intro nid tid
    simp [mkDefaultRows, rowsFor, List.filter_cons] at ih ⊢
    exact ih (nid + 1) tid

theorem mkDefaultRows_proj (ds : List Int) : ∀ (nid tid : Nat),
    (mkDefaultRows nid tid ds).map proj = ds.map (fun d => (d, "", 0)) := by
  induction ds with
  | nil => intro nid tid; simp [mkDefaultRows]
  | cons d ds ih =>
    intro nid tid
    simp [mkDefaultRows, proj]
    exact ih (nid + 1) tid

theorem rowsFor_append (tbl l : LogsTable) (tid : Nat) :
    rowsFor (tbl ++ l) tid = rowsFor tbl tid ++ rowsFor l tid := by
  simp [rowsFor, List.filter_append]

theorem rowsFor_nil_any (tbl : LogsTable) (tid : Nat)
    (h : rowsFor tbl tid = []) (d : Int) :
    tbl.any (fun r => logKey r tid d) = false := by
  rw [List.any_eq_false]
  intro r hr hk
  have hmem : r ∈ rowsFor tbl tid := by
    rw [rowsFor, List.mem_filter]
    exact ⟨hr, by simp [logKey] at hk; simp [hk.1]⟩
  rw [h] at hmem
  exact List.not_mem_nil r hmem

/-- Claim C1: when a task is created with `start ≤ end`, the daily-rows loop
produces exactly one `logs` row per calendar day from `start` to `end`
inclusive — the expanded date list is strictly ascending with no duplicates,
covers exactly the dates `start ≤ d ≤ end` (no gaps), has length
`(end - start).days + 1`, first element `start` and last element `end` — and
every newly created row has `percent = 0` and empty notes. -/
theorem createTask_daily_rows (tbl : LogsTable) (nid tid : Nat) (s e : Int)
    (hse : s ≤ e) (hfresh : rowsFor tbl tid = []) :
    (rowsFor (createTaskLogs tbl nid tid s e) tid).map proj
        = (expand s e).map (fun d => (d, "", 0)) ∧
    (expand s e).length = (e - s).toNat + 1 ∧
    (expand s e)[0]? = some s ∧
    (expand s e)[(e - s).toNat]? = some e ∧
    List.Pairwise (· < ·) (expand s e) ∧
    (∀ d : Int, d ∈ expand s e ↔ s ≤ d ∧ d ≤ e) := by
  have hlen : (expand s e).length = (e - s).toNat + 1 := by
    rw [expand_length]; omega
  refine ⟨?_, hlen, ?_, ?_, ?_, fun d => expand_mem s e d⟩
  · rw [createTaskLogs,
      runDailyUpserts_fresh _ tbl nid tid
        (fun d _ => rowsFor_nil_any tbl tid hfresh d) (expand_nodup s e),
      rowsFor_append, hfresh, rowsFor_mkDefaultRows]
    simp only [List.nil_append, mkDefaultRows_proj]
  · have h0 : 0 < (expand s e).length := by omega
    rw [List.getElem?_eq_getElem h0, expand_getElem]
    simp
  · have hl : (e - s).toNat < (expand s e).length := by omega
    rw [List.getElem?_eq_getElem hl, expand_getElem]
    congr 1
    omega
  · rw [expand]
    refine List.Pairwise.map _ ?_ (List.pairwise_lt_range _)
    intro a b hab
    omega

/-- Witness for C1 at the concrete range `[0, 2]` on an empty store. -/
theorem createTask_daily_rows_witness :
    (rowsFor (createTaskLogs [] 1 7 0 2) 7).map proj
      = [(0, "", 0), (1, "", 0), (2, "", 0)] := by
  have h := createTask_daily_rows [] 1 7 0 2 (by decide) (by decide)
  rw [h.1]
  decide

-- ### The Log Reconciler (spec §4.2) and range updates (spec §4.3)

/-- Modelled from the spec: the Log Reconciler `reconcile(taskId, desiredDates,
existingDates)` has no function of its own in src/app.py — the interactive
surface only exercises it through the create-task daily-rows loop
(src/app.py lines 59-67), where the existing set is empty.  Spec §4.2 fixes
its policy: `toCreate = desiredDates − existingDates` and
`toDelete = existingDates − desiredDates`. -/
def reconcile (taskId : Nat) (desired existing : Finset Int) :
    Finset Int × Finset Int :=
  (desired \ existing, existing \ desired)

/-- Claim C2: `reconcile` returns `toCreate = desired − existing` and
`toDelete = existing − desired`, hence `toCreate ∩ existing = ∅`,
`toDelete ⊆ existing`, `(existing − toDelete) ∪ toCreate = desired`, dates in
both sets end up in neither delta, and re-running `reconcile` once the delta
has been applied (so the existing set now equals the desired set) produces
empty create and delete sets. -/
theorem reconcile_correct (tid : Nat) (desired existing : Finset Int) :
    (reconcile tid desired existing).1 ∩ existing = ∅ ∧
    (reconcile tid desired existing).2 ⊆ existing ∧
    (existing \ (reconcile tid desired existing).2) ∪ (reconcile tid desired existing).1
      = desired ∧
    (∀ d, d ∈ desired → d ∈ existing →
      d ∉ (reconcile tid desired existing).1 ∧ d ∉ (reconcile tid desired existing).2) ∧
    reconcile tid desired
      ((existing \ (reconcile tid desired existing).2) ∪ (reconcile tid desired existing).1)
      = (∅, ∅) := by
  have happlied :
      (existing \ (reconcile tid desired existing).2) ∪ (reconcile tid desired existing).1
        = desired := by
    ext a
    simp [reconcile]
    tauto
  refine ⟨?_, ?_, happlied, ?_, ?_⟩
  · ext a
    simp [reconcile]
  · intro a ha
    simp [reconcile] at ha
    exact ha.1
  · intro d hd he
    simp [reconcile]
    tauto
  · rw [happlied]
    simp [reconcile]

/-- Witness for C2: a date present in both sets is in neither delta. -/
theorem reconcile_correct_witness :
    2 ∉ (reconcile 5 ({2, 3, 4} : Finset Int) {1, 2, 3}).1 ∧
    2 ∉ (reconcile 5 ({2, 3, 4} : Finset Int) {1, 2, 3}).2 := by
  have h := reconcile_correct 5 ({2, 3, 4} : Finset Int) {1, 2, 3}
  exact h.2.2.2.1 2 (by decide) (by decide)

/-- The (notes, percent) data of a row. -/
def noteAndPct (r : LogRow) : String × Int :=
  (r.progress, r.percent)

/-- Modelled from the spec: `updateRange` (spec §4.3) is a capability the
current interactive surface of src/app.py does not expose; per the spec it
recomputes the desired date set via the Expander, compares with the existing
log dates, and applies the Reconciler delta — deleting the task's rows whose
dates left the range and inserting default rows (the same daily upserts as the
creation loop) for the missing dates. -/
def updateRange (tbl : LogsTable) (nid tid : Nat) (ns ne : Int) : LogsTable :=
  let desired := expand ns ne
  let kept := tbl.filter (fun r => r.task_id != tid || desired.contains r.log_date)
  let toCreate := desired.filter (fun d => !(tbl.any (fun r => logKey r tid d)))
  runDailyUpserts kept nid tid toCreate

theorem find?_filter_of_imp (l : List LogRow) (p q : LogRow → Bool)
    (h : ∀ r, p r = true → q r = true) :
    (l.filter q).find? p = l.find? p := by
  induction l with
  | nil => rfl
  | cons a l ih =>
    by_cases hq : q a = true
    · rw [List.filter_cons_of_pos hq]
      by_cases hp : p a = true
      · rw [List.find?_cons_of_pos _ hp, List.find?_cons_of_pos _ hp]
      · rw [List.find?_cons_of_neg _ hp, List.find?_cons_of_neg _ hp, ih]
    · have hp : ¬p a = true := fun hc => hq (h a hc)
      rw [List.filter_cons_of_neg hq, List.find?_cons_of_neg _ hp, ih]

theorem find?_mkDefaultRows (ds : List Int) : ∀ (nid tid : Nat) (d : Int), d ∈ ds →
    ∃ nid', (mkDefaultRows nid tid ds).find? (fun r => logKey r tid d)
      = some ⟨nid', tid, d, "", 0⟩ := by
  induction ds with
  | nil => intro _ _ _ h; exact absurd h (List.not_mem_nil _)
  | cons a ds ih =>
    intro nid tid d hd
    by_cases had : a = d
    · subst had
      refine ⟨nid, ?_⟩
      rw [mkDefaultRows, List.find?_cons_of_pos]
      simp [logKey]
    · have hd' : d ∈ ds := by
        cases List.mem_cons.mp hd with
        | inl h => exact absurd h.symm had
        | inr h => exact h
      obtain ⟨nid', hfind⟩ := ih (nid + 1) tid d hd'
      refine ⟨nid', ?_⟩
      rw [mkDefaultRows, List.find?_cons_of_neg, hfind]
      simp [logKey, had]

theorem find?_mkDefaultRows_none (ds : List Int) : ∀ (nid tid : Nat) (d : Int), d ∉ ds →
    (mkDefaultRows nid tid ds).find? (fun r => logKey r tid d) = none := by
  induction ds with
  | nil => intro _ _ _ _; rfl
  | cons a ds ih =>
    intro nid tid d hd
    have had : ¬a = d := fun h => hd (h ▸ List.mem_cons_self a ds)
    rw [mkDefaultRows, List.find?_cons_of_neg]
    · exact ih (nid + 1) tid d (fun h => hd (List.mem_cons_of_mem a h))
    · simp [logKey, had]

theorem find?_mkDefaultRows_other (ds : List Int) : ∀ (nid tid tid' : Nat) (d : Int),
    tid' ≠ tid →
    (mkDefaultRows nid tid ds).find? (fun r => logKey r tid' d) = none := by
  induction ds with
  | nil => intro _ _ _ _ _; rfl
  | cons a ds ih =>
    intro nid tid tid' d hne
    rw [mkDefaultRows, List.find?_cons_of_neg]
    · exact ih (nid + 1) tid tid' d hne
    · simp [logKey]
      intro h
      exact absurd h.symm hne

theorem rowsFor_mkDefaultRows_other (ds : List Int) : ∀ (nid tid tid' : Nat),
    tid' ≠ tid → rowsFor (mkDefaultRows nid tid ds) tid' = [] := by
  induction ds with
  | nil => intro _ _ _ _; rfl
  | cons a ds ih =>
    intro nid tid tid' hne
    rw [mkDefaultRows, rowsFor, List.filter_cons_of_neg, ← rowsFor]
    · exact ih (nid + 1) tid tid' hne
    · simp only [beq_iff_eq]
      exact fun h => hne h.symm

theorem updateRange_split (tbl : LogsTable) (nid tid : Nat) (ns ne : Int) :
    updateRange tbl nid tid ns ne
      = tbl.filter (fun r => r.task_id != tid || (expand ns ne).contains r.log_date)
        ++ mkDefaultRows nid tid
            ((expand ns ne).filter (fun d => !(tbl.any (fun r => logKey r tid d)))) := by
  rw [updateRange]
  refine runDailyUpserts_fresh _ _ _ _ ?_ (List.Nodup.filter _ (expand_nodup ns ne))
  intro d hd
  rw [List.mem_filter] at hd
  have htb : tbl.any (fun r => logKey r tid d) = false := by
    cases h : tbl.any (fun r => logKey r tid d) with
    | false => rfl
    | true => rw [h] at hd; simp at hd
  rw [List.any_eq_false] at htb ⊢
  intro r hr
  exact htb r (List.mem_of_mem_filter hr)

/-- Claim C3: a range update preserves the notes and percent of every log of
the task whose date lies in the new range (missing dates get empty notes and
percent 0), deletes exactly the task's logs whose dates fall outside the new
range, and leaves every other task's rows untouched. -/
theorem updateRange_reconciles (tbl : LogsTable) (nid tid : Nat) (ns ne : Int) :
    (∀ d : Int, ns ≤ d → d ≤ ne →
      (findByKey (updateRange tbl nid tid ns ne) tid d).map noteAndPct
        = some (((findByKey tbl tid d).map noteAndPct).getD ("", 0))) ∧
    (∀ d : Int, d < ns ∨ ne < d →
      findByKey (updateRange tbl nid tid ns ne) tid d = none) ∧
    (∀ tid' : Nat, tid' ≠ tid →
      rowsFor (updateRange tbl nid tid ns ne) tid' = rowsFor tbl tid') := by
  have hkept : ∀ d : Int, d ∈ expand ns ne →
      (tbl.filter (fun r => r.task_id != tid || (expand ns ne).contains r.log_date)).find?
          (fun r => logKey r tid d)
        = findByKey tbl tid d := by
    intro d hd
    rw [findByKey]
    refine find?_filter_of_imp _ _ _ ?_
    intro r hp
    simp only [logKey, Bool.and_eq_true, beq_iff_eq] at hp
    simp only [Bool.or_eq_true]
    right
    rw [List.contains_iff_exists_mem_beq]
    exact ⟨d, hd, by simp [hp.2]⟩
  refine ⟨?_, ?_, ?_⟩
  · intro d hd1 hd2
    have hdmem : d ∈ expand ns ne := (expand_mem ns ne d).mpr ⟨hd1, hd2⟩
    rw [updateRange_split, findByKey, List.find?_append, hkept d hdmem]
    cases hfind : findByKey tbl tid d with
    | some r =>
      simp [Option.or]
    | none =>
      have hany : tbl.any (fun r => logKey r tid d) = false := by
        rw [List.any_eq_false]
        rw [findByKey, List.find?_eq_none] at hfind
        exact hfind
      have hdc : d ∈ (expand ns ne).filter (fun d => !(tbl.any (fun r => logKey r tid d))) := by
        rw [List.mem_filter, hany]
        exact ⟨hdmem, rfl⟩
      obtain ⟨nid', hmk⟩ := find?_mkDefaultRows _ nid tid d hdc
      rw [hmk]
      simp [noteAndPct]
  · intro d hd
    have hdmem : d ∉ expand ns ne := by
      rw [expand_mem]
      omega
    rw [updateRange_split, findByKey, List.find?_append]
    have h1 : (tbl.filter (fun r => r.task_id != tid || (expand ns ne).contains r.log_date)).find?
        (fun r => logKey r tid d) = none := by
      rw [List.find?_eq_none]
      intro r hr hk
      rw [List.mem_filter] at hr
      simp only [logKey, Bool.and_eq_true, beq_iff_eq] at hk
      have hq := hr.2
      simp only [Bool.or_eq_true, bne_iff_ne, ne_eq] at hq
      cases hq with
      | inl h => exact h hk.1
      | inr h =>
        rw [List.contains_iff_exists_mem_beq] at h
        obtain ⟨b, hb, hbeq⟩ := h
        rw [beq_iff_eq] at hbeq
        have hdb : d = b := hk.2.symm.trans hbeq
        subst hdb
        exact hdmem hb
    have h2 : (mkDefaultRows nid tid
        ((expand ns ne).filter (fun d => !(tbl.any (fun r => logKey r tid d))))).find?
          (fun r => logKey r tid d) = none := by
      refine find?_mkDefaultRows_none _ nid tid d ?_
      intro hc
      exact hdmem (List.mem_of_mem_filter hc)
    rw [h1, h2]
    rfl
  · intro tid' hne
    rw [updateRange_split, rowsFor_append,
      rowsFor_mkDefaultRows_other _ nid tid tid' hne, List.append_nil, rowsFor,
      List.filter_filter]
    rw [rowsFor]
    refine List.filter_congr ?_
    intro r hr
    cases h : (r.task_id == tid' : Bool) with
    | false => simp
    | true =>
      rw [beq_iff_eq] at h
      have : (r.task_id != tid) = true := by
        rw [bne_iff_ne, ne_eq, h]
        exact hne
      simp [this]

/-- The concrete table of the spec's shrink scenario: task 1 with range
`[1..5]` and percent 50 (plus notes) recorded on day 3. -/
def shrinkDemoTable : LogsTable :=
  [⟨1, 1, 1, "", 0⟩, ⟨2, 1, 2, "", 0⟩, ⟨3, 1, 3, "day three notes", 50⟩,
   ⟨4, 1, 4, "", 0⟩, ⟨5, 1, 5, "", 0⟩]

/-- Witness for C3: shrinking `[1..5]` to `[2..4]` keeps day 3's notes and
percent and deletes the day-1 and day-5 rows. -/
theorem updateRange_reconciles_witness :
    (findByKey (updateRange shrinkDemoTable 10 1 2 4) 1 3).map noteAndPct
        = some ("day three notes", 50) ∧
    findByKey (updateRange shrinkDemoTable 10 1 2 4) 1 1 = none ∧
    findByKey (updateRange shrinkDemoTable 10 1 2 4) 1 5 = none := by
  have h := updateRange_reconciles shrinkDemoTable 10 1 2 4
  refine ⟨?_, h.2.1 1 (by decide), h.2.1 5 (by decide)⟩
  have h3 := h.1 3 (by decide) (by decide)
  rw [h3]
  decide

-- ### The Daily Update tab (src/app.py lines 135-170)

/-- The Daily Update save flow (src/app.py lines 141-163): the key-only upsert
ensures the row exists, the row is read back, the notes widget and the
completion slider are initialised with the stored `progress` and `percent`
(lines 154-155), and the Save button writes both columns through
`update({"progress": notes, "percent": pct}).eq("id", row["id"])` (line 158).
An input of `none` models a field the user did not supply: the widget then
still holds the stored value, which is what gets written back. -/
def dailyUpdateSave (tbl : LogsTable) (nid tid : Nat) (d : Int)
    (notesInput : Option String) (pctInput : Option Int) : LogsTable :=
  let tbl1 := upsertLogKeyOnly tbl nid tid d
  match findByKey tbl1 tid d with
  | none => tbl1
  | some row =>
      updateLogById tbl1 row.id (notesInput.getD row.progress) (pctInput.getD row.percent)

theorem upsertLogKeyOnly_noop (tbl : LogsTable) (nid tid : Nat) (d : Int) (r : LogRow)
    (hfind : findByKey tbl tid d = some r) :
    upsertLogKeyOnly tbl nid tid d = tbl := by
  have hf : tbl.find? (fun r => logKey r tid d) = some r := hfind
  have hpr : logKey r tid d = true := by
    have h2 := List.find?_some hf
    simpa using h2
  have hany : tbl.any (fun r => logKey r tid d) = true := by
    rw [List.any_eq_true]
    exact ⟨r, List.mem_of_find?_eq_some hf, hpr⟩
  simp [upsertLogKeyOnly, hany]

theorem upsertLogKeyOnly_insert (tbl : LogsTable) (nid tid : Nat) (d : Int)
    (hfind : findByKey tbl tid d = none) :
    upsertLogKeyOnly tbl nid tid d = tbl ++ [⟨nid, tid, d, "", 0⟩] := by
  have hany : tbl.any (fun r => logKey r tid d) = false := by
    rw [List.any_eq_false]
    rw [findByKey, List.find?_eq_none] at hfind
    exact hfind
  simp [upsertLogKeyOnly, hany]

theorem findByKey_updateLogById (tbl : LogsTable) (rid : Nat) (prog : String)
    (pct : Int) (tid : Nat) (d : Int) :
    findByKey (updateLogById tbl rid prog pct) tid d
      = (findByKey tbl tid d).map (fun r => if r.id == rid then
          { r with progress := prog, percent := pct } else r) := by
  rw [findByKey, findByKey, updateLogById, List.find?_map]
  have hcomp : ((fun r => logKey r tid d) ∘ fun r => if r.id == rid then
      { r with progress := prog, percent := pct } else r) = fun r => logKey r tid d := by
    funext r
    by_cases h : r.id == rid
    · simp [Function.comp, h, logKey]
    · simp [Function.comp, h]
  rw [hcomp]

/-- Claim C9: opening the Daily Update view for a date inside the task's
window first issues the key-only upsert (src/app.py lines 141-144); after it a
row for `(tid, d)` exists, an already-existing row leaves the whole table
unchanged (stored notes and percent in particular), and a missing row is
inserted with the defaults `progress=""`, `percent=0` — one row per day,
nothing reset. -/
theorem dailyUpdate_ensure_row (tbl : LogsTable) (nid tid : Nat) (sd ed d : Int)
    (h1 : sd ≤ d) (h2 : d ≤ ed) :
    (findByKey (upsertLogKeyOnly tbl nid tid d) tid d).isSome = true ∧
    (∀ r, findByKey tbl tid d = some r → upsertLogKeyOnly tbl nid tid d = tbl) ∧
    (findByKey tbl tid d = none →
      upsertLogKeyOnly tbl nid tid d = tbl ++ [⟨nid, tid, d, "", 0⟩]) := by
  refine ⟨?_, fun r hr => upsertLogKeyOnly_noop tbl nid tid d r hr,
    fun hn => upsertLogKeyOnly_insert tbl nid tid d hn⟩
  cases hfind : findByKey tbl tid d with
  | some r =>
    rw [upsertLogKeyOnly_noop tbl nid tid d r hfind, hfind]
    rfl
  | none =>
    rw [upsertLogKeyOnly_insert tbl nid tid d hfind, findByKey, List.find?_append]
    have hf : tbl.find? (fun r => logKey r tid d) = none := hfind
    rw [hf]
    simp [logKey]

/-- Witness for C9: an existing row (with data) is left untouched, a missing
row is inserted with zero-valued defaults. -/
theorem dailyUpdate_ensure_row_witness :
    (findByKey (upsertLogKeyOnly [(⟨1, 1, 0, "keep", 30⟩ : LogRow)] 5 1 0) 1 0).isSome
        = true ∧
    upsertLogKeyOnly [(⟨1, 1, 0, "keep", 30⟩ : LogRow)] 5 1 0
        = [⟨1, 1, 0, "keep", 30⟩] ∧
    upsertLogKeyOnly ([] : LogsTable) 5 1 0 = [⟨5, 1, 0, "", 0⟩] := by
  have ha := dailyUpdate_ensure_row [(⟨1, 1, 0, "keep", 30⟩ : LogRow)] 5 1 0 2 0
    (by decide) (by decide)
  have hb := dailyUpdate_ensure_row ([] : LogsTable) 5 1 0 2 0 (by decide) (by decide)
  exact ⟨ha.1, ha.2.1 ⟨1, 1, 0, "keep", 30⟩ (by decide), hb.2.2 (by decide)⟩

/-- Claim C4: saving progress for `(tid, d)` upserts without resetting fields
that are not supplied — writing only notes keeps the stored percent, writing
only percent keeps the stored notes, and supplying both writes both. -/
theorem recordProgress_partial_update (tbl : LogsTable) (nid tid : Nat) (d : Int)
    (r : LogRow) (hfind : findByKey tbl tid d = some r) :
    (∀ n : String,
      (findByKey (dailyUpdateSave tbl nid tid d (some n) none) tid d).map noteAndPct
        = some (n, r.percent)) ∧
    (∀ p : Int,
      (findByKey (dailyUpdateSave tbl nid tid d none (some p)) tid d).map noteAndPct
        = some (r.progress, p)) ∧
    (∀ (n : String) (p : Int),
      (findByKey (dailyUpdateSave tbl nid tid d (some n) (some p)) tid d).map noteAndPct
        = some (n, p)) := by
  have hsave : ∀ (ni : Option String) (pi : Option Int),
      dailyUpdateSave tbl nid tid d ni pi
        = updateLogById tbl r.id (ni.getD r.progress) (pi.getD r.percent) := by
    intro ni pi
    simp only [dailyUpdateSave, upsertLogKeyOnly_noop tbl nid tid d r hfind, hfind]
  have hkey : ∀ (prog : String) (pct : Int),
      (findByKey (updateLogById tbl r.id prog pct) tid d).map noteAndPct
        = some (prog, pct) := by
    intro prog pct
    rw [findByKey_updateLogById, hfind]
    simp [noteAndPct]
  refine ⟨fun n => ?_, fun p => ?_, fun n p => ?_⟩
  · rw [hsave, hkey]
    rfl
  · rw [hsave, hkey]
    rfl
  · rw [hsave, hkey]
    rfl

/-- Witness for C4 on a concrete stored row with notes "old notes" and
percent 40. -/
theorem recordProgress_partial_update_witness :
    ((findByKey (dailyUpdateSave [(⟨1, 1, 0, "old notes", 40⟩ : LogRow)] 5 1 0
        (some "new notes") none) 1 0).map noteAndPct = some ("new notes", 40)) ∧
    ((findByKey (dailyUpdateSave [(⟨1, 1, 0, "old notes", 40⟩ : LogRow)] 5 1 0
        none (some 70)) 1 0).map noteAndPct = some ("old notes", 70)) ∧
    ((findByKey (dailyUpdateSave [(⟨1, 1, 0, "old notes", 40⟩ : LogRow)] 5 1 0
        (some "both") (some 90)) 1 0).map noteAndPct = some ("both", 90)) := by
  have h := recordProgress_partial_update [(⟨1, 1, 0, "old notes", 40⟩ : LogRow)] 5 1 0
    ⟨1, 1, 0, "old notes", 40⟩ (by decide)
  exact ⟨h.1 "new notes", h.2.1 70, h.2.2 "both" 90⟩

-- ### recordProgress validation (spec §4.3, §7)

/-- The error taxonomy of spec §7. -/
inductive CoreError
  | ValidationError
  | OutOfRange
  | NotFound
  | StoreError
deriving Repr, DecidableEq

/-- Modelled from the spec: `recordProgress(taskId, date, notes, percent)`
(spec §4.3) has no core function in src/app.py — the interactive surface
prevents the invalid inputs instead (the date picker is clamped to
`[Task.start, Task.end]` on line 138 and the completion slider to `[0, 100]`
on line 155).  Per the spec the call fails with `OutOfRange` when the date is
outside the task window and with `ValidationError` when the percent is outside
`[0, 100]`, both before any write; otherwise it performs the Daily Update
save.  The returned pair is (resulting logs table, error if any): on failure
the table is returned unchanged. -/
def recordProgress (tbl : LogsTable) (nid tid : Nat) (sd ed : Int) (d : Int)
    (notes : String) (pct : Int) : LogsTable × Option CoreError :=
  if d < sd ∨ ed < d then (tbl, some CoreError.OutOfRange)
  else if pct < 0 ∨ 100 < pct then (tbl, some CoreError.ValidationError)
  else (dailyUpdateSave tbl nid tid d (some notes) (some pct), none)

/-- Claim C5: for a percent outside `[0,100]` and a date inside the window,
`recordProgress` fails with `ValidationError` and leaves the store unchanged;
for a date outside `[Task.start, Task.end]` it fails with `OutOfRange` before
any write. -/
theorem recordProgress_validation (tbl : LogsTable) (nid tid : Nat) (sd ed d : Int)
    (notes : String) (pct : Int) :
    ((pct < 0 ∨ 100 < pct) → sd ≤ d → d ≤ ed →
      recordProgress tbl nid tid sd ed d notes pct
        = (tbl, some CoreError.ValidationError)) ∧
    ((d < sd ∨ ed < d) →
      recordProgress tbl nid tid sd ed d notes pct
        = (tbl, some CoreError.OutOfRange)) := by
  constructor
  · intro hp h1 h2
    rw [recordProgress, if_neg (by omega), if_pos hp]
  · intro hd
    rw [recordProgress, if_pos hd]

/-- Witness for C5: percent 150 on an in-window date yields `ValidationError`
with the store unchanged; an out-of-window date yields `OutOfRange`. -/
theorem recordProgress_validation_witness :
    recordProgress [(⟨1, 1, 1, "", 0⟩ : LogRow)] 5 1 1 3 2 "notes" 150
        = ([⟨1, 1, 1, "", 0⟩], some CoreError.ValidationError) ∧
    recordProgress [(⟨1, 1, 1, "", 0⟩ : LogRow)] 5 1 1 3 7 "notes" 50
        = ([⟨1, 1, 1, "", 0⟩], some CoreError.OutOfRange) := by
  have ha := recordProgress_validation [(⟨1, 1, 1, "", 0⟩ : LogRow)] 5 1 1 3 2 "notes" 150
  have hb := recordProgress_validation [(⟨1, 1, 1, "", 0⟩ : LogRow)] 5 1 1 3 7 "notes" 50
  exact ⟨ha.1 (by decide) (by decide) (by decide), hb.2 (by decide)⟩

-- ### Task summary (src/app.py lines 80-89)

/-- Python's `round` on an exact rational value: round-half-to-even (banker's
rounding), as used by `round(sum(...)/len(rows))` on src/app.py line 87. -/
def pyRound (q : ℚ) : ℤ :=
  if Int.fract q < 1 / 2 then ⌊q⌋
  else if 1 / 2 < Int.fract q then ⌊q⌋ + 1
  else if ⌊q⌋ % 2 = 0 then ⌊q⌋ else ⌊q⌋ + 1

/-- The `Days` column (src/app.py line 81):
`(end_date - start_date).days + 1`. -/
def taskDays (sd ed : Int) : Int :=
  ed - sd + 1

/-- The `Done%` column (src/app.py lines 82-88): `round(sum(ps)/len(ps))`
over the task's log percents when rows exist, else 0. -/
def donePercent (percents : List Int) : Int :=
  if percents.length = 0 then 0
  else pyRound ((percents.sum : ℚ) / (percents.length : ℚ))

theorem pyRound_nearest (q : ℚ) (m : ℤ) :
    |(pyRound q : ℚ) - q| ≤ |(m : ℚ) - q| := by
  have hr0 : 0 ≤ Int.fract q := Int.fract_nonneg q
  have hr1 : Int.fract q < 1 := Int.fract_lt_one q
  have hfr : (⌊q⌋ : ℚ) = q - Int.fract q := by
    rw [Int.fract]
    ring
  have habs1 : |(⌊q⌋ : ℚ) - q| = Int.fract q := by
    have h : (⌊q⌋ : ℚ) - q = -(Int.fract q) := by rw [hfr]; ring
    rw [h, abs_neg, abs_of_nonneg hr0]
  have habs2 : |((⌊q⌋ : ℚ) + 1) - q| = 1 - Int.fract q := by
    have h : ((⌊q⌋ : ℚ) + 1) - q = 1 - Int.fract q := by rw [hfr]; ring
    rw [h, abs_of_nonneg (by linarith)]
  have hmq : 1 - Int.fract q ≤ |(m : ℚ) - q| ∨ Int.fract q ≤ |(m : ℚ) - q| := by
    rcases le_or_lt m ⌊q⌋ with h | h
    · right
      have hc : (m : ℚ) ≤ (⌊q⌋ : ℚ) := by exact_mod_cast h
      rw [abs_sub_comm]
      calc Int.fract q ≤ q - m := by rw [hfr] at hc; linarith
        _ ≤ |q - m| := le_abs_self _
    · left
      have hc : (⌊q⌋ : ℚ) + 1 ≤ (m : ℚ) := by exact_mod_cast h
      calc 1 - Int.fract q ≤ (m : ℚ) - q := by rw [hfr] at hc; linarith
        _ ≤ |(m : ℚ) - q| := le_abs_self _
  rw [pyRound]
  split_ifs with h1 h2 h3
  · rw [habs1]
    rcases hmq with h | h
    · linarith
    · linarith
  · push_cast
    rw [habs2]
    rcases hmq with h | h
    · linarith
    · linarith
  · have htie : Int.fract q = 1 / 2 := le_antisymm (not_lt.mp h2) (not_lt.mp h1)
    rw [habs1, htie]
    rcases hmq with h | h
    · rw [htie] at h; linarith
    · rw [htie] at h; linarith
  · have htie : Int.fract q = 1 / 2 := le_antisymm (not_lt.mp h2) (not_lt.mp h1)
    push_cast
    rw [habs2, htie]
    rcases hmq with h | h
    · rw [htie] at h; linarith
    · rw [htie] at h; linarith

theorem pyRound_intCast (n : Int) : pyRound (n : ℚ) = n := by
  rw [pyRound, Int.fract_intCast]
  norm_num

/-- Claim C6: `computeSummary` reports `days = end − start + 1` (which equals
the number of reconciled log rows, i.e. the length of the expanded range) and
`donePercent` the arithmetic mean of the logs' percents rounded to a nearest
integer, with 0 for a task with no logs; `[0, 50, 100]` yields 50. -/
theorem computeSummary_correct (sd ed : Int) (percents : List Int) :
    taskDays sd ed = ed - sd + 1 ∧
    (sd ≤ ed → taskDays sd ed = ((expand sd ed).length : Int)) ∧
    donePercent [] = 0 ∧
    (percents ≠ [] → ∀ m : Int,
      |(donePercent percents : ℚ) - (percents.sum : ℚ) / (percents.length : ℚ)|
        ≤ |(m : ℚ) - (percents.sum : ℚ) / (percents.length : ℚ)|) ∧
    donePercent [0, 50, 100] = 50 := by
  refine ⟨rfl, ?_, rfl, ?_, ?_⟩
  · intro h
    rw [expand_length, taskDays]
    omega
  · intro hne m
    rw [donePercent, if_neg (by simpa using hne)]
    exact pyRound_nearest _ m
  · have h : ((([0, 50, 100] : List Int).sum : ℚ) / (([0, 50, 100] : List Int).length : ℚ))
        = ((50 : Int) : ℚ) := by
      norm_num
    rw [donePercent, if_neg (by norm_num), h, pyRound_intCast]

/-- Witness for C6: days of the 3-day range `[0..2]`, and `donePercent`
of `[0, 50, 100]` is at least as close to the mean as the integer 49. -/
theorem computeSummary_correct_witness :
    taskDays 0 2 = ((expand 0 2).length : Int) ∧
    |(donePercent [0, 50, 100] : ℚ)
        - (([0, 50, 100] : List Int).sum : ℚ) / (([0, 50, 100] : List Int).length : ℚ)|
      ≤ |((49 : Int) : ℚ)
        - (([0, 50, 100] : List Int).sum : ℚ) / (([0, 50, 100] : List Int).length : ℚ)| := by
  have h := computeSummary_correct 0 2 [0, 50, 100]
  exact ⟨h.2.1 (by decide), h.2.2.2.1 (by decide) 49⟩

-- ### Document attachment (src/app.py lines 172-199) and download (201-227)

/-- The Blob Store: an association list from storage path to byte content. -/
abbrev BlobStore := List (String × List Nat)

/-- `storage.upload(key, bytes, {"upsert": True, ...})` with the
`storage.update` fallback (src/app.py lines 183-190): an overwriting write at
the path. -/
def blobUpload (bs : BlobStore) (p : String) (content : List Nat) : BlobStore :=
  (p, content) :: bs.filter (fun kv => kv.1 != p)

/-- `storage.download(path)` (src/app.py line 218): the stored content, when
the path exists in the Blob Store. -/
def blobLookup (bs : BlobStore) (p : String) : Option (List Nat) :=
  (bs.find? (fun kv => kv.1 == p)).map (fun kv => kv.2)

/-- The deterministic storage key (src/app.py line 178):
`f"task_{task_id}/{pick}/{f.name}"`, with `dateStr` the decimal rendering of
the picked date (`str(pick)`). -/
def docPath (tid : Nat) (dateStr : String) (fname : String) : String :=
  "task_" ++ toString tid ++ "/" ++ dateStr ++ "/" ++ fname

/-- Does docs row `r` have the natural key `(lid, p)`? -/
def docKey (r : DocRow) (lid : Nat) (p : String) : Bool :=
  r.log_id == lid && r.path == p

/-- `docs.upsert({log_id, filename, path}, on_conflict="log_id,path")`
(src/app.py lines 193-196): a conflicting row has its supplied non-key column
(`filename`) rewritten; otherwise a fresh row is appended. -/
def upsertDoc (tbl : List DocRow) (nid lid : Nat) (fname p : String) : List DocRow :=
  if tbl.any (fun r => docKey r lid p) then
    tbl.map (fun r => if docKey r lid p then { r with filename := fname } else r)
  else
    tbl ++ [⟨nid, lid, fname, p⟩]

/-- The per-file body of the upload loop (src/app.py lines 177-197): derive
the key from (task, date, filename), overwrite the blob at the key, then
upsert the metadata row keyed on `(log_id, path)`. -/
def attach (bs : BlobStore) (docs : List DocRow) (nid tid : Nat)
    (dateStr : String) (lid : Nat) (fname : String) (content : List Nat) :
    BlobStore × List DocRow :=
  (blobUpload bs (docPath tid dateStr fname) content,
   upsertDoc docs nid lid fname (docPath tid dateStr fname))

/-- Number of docs rows with the natural key `(lid, p)`. -/
def countDocKey (tbl : List DocRow) (lid : Nat) (p : String) : Nat :=
  (tbl.filter (fun r => docKey r lid p)).length

/-- `n` identical attach calls in a row. -/
def iterAttach (nid tid : Nat) (dateStr : String) (lid : Nat) (fname : String)
    (content : List Nat) : Nat → BlobStore × List DocRow → BlobStore × List DocRow
  | 0, st => st
  | n + 1, st => iterAttach nid tid dateStr lid fname content n
      (attach st.1 st.2 nid tid dateStr lid fname content)

theorem countDocKey_upsertDoc (tbl : List DocRow) (nid lid : Nat) (fname p : String) :
    countDocKey (upsertDoc tbl nid lid fname p) lid p
      = max 1 (countDocKey tbl lid p) := by
  rw [upsertDoc]
  by_cases h : tbl.any (fun r => docKey r lid p) = true
  · rw [if_pos h, countDocKey]
    have hcomp : (tbl.map (fun r => if docKey r lid p then { r with filename := fname }
        else r)).filter (fun r => docKey r lid p)
        = (tbl.filter (fun r => docKey r lid p)).map (fun r =>
            if docKey r lid p then { r with filename := fname } else r) := by
      rw [List.filter_map]
      congr 1
      refine List.filter_congr ?_
      intro r _
      show docKey (if docKey r lid p then { r with filename := fname } else r) lid p
          = docKey r lid p
      by_cases hr : docKey r lid p = true
      · rw [if_pos hr, hr]
        simp only [docKey, Bool.and_eq_true, beq_iff_eq] at hr ⊢
        exact hr
      · rw [if_neg hr]
    rw [hcomp, List.length_map, ← countDocKey]
    have hpos : 1 ≤ countDocKey tbl lid p := by
      rw [List.any_eq_true] at h
      obtain ⟨r, hr, hk⟩ := h
      rw [countDocKey]
      have : r ∈ tbl.filter (fun r => docKey r lid p) := by
        rw [List.mem_filter]
        exact ⟨hr, hk⟩
      exact List.length_pos.mpr (fun hnil => by rw [hnil] at this; exact List.not_mem_nil r this)
    omega
  · have hfalse : tbl.any (fun r => docKey r lid p) = false := by
      rw [← Bool.not_eq_true]
      exact h
    have h0 : tbl.filter (fun r => docKey r lid p) = [] := by
      rw [List.filter_eq_nil_iff]
      rw [List.any_eq_false] at hfalse
      exact hfalse
    rw [if_neg h, countDocKey, List.filter_append, h0, countDocKey, h0]
    simp [docKey]

theorem blobLookup_blobUpload (bs : BlobStore) (p : String) (content : List Nat) :
    blobLookup (blobUpload bs p content) p = some content := by
  rw [blobLookup, blobUpload, List.find?_cons_of_pos]
  · rfl
  · simp

theorem iterAttach_keeps_one (nid tid : Nat) (dateStr : String) (lid : Nat)
    (fname : String) (content : List Nat) : ∀ (n : Nat) (st : BlobStore × List DocRow),
    countDocKey st.2 lid (docPath tid dateStr fname) = 1 →
    countDocKey (iterAttach nid tid dateStr lid fname content n st).2 lid
      (docPath tid dateStr fname) = 1 := by
  intro n
  induction n with
  | zero => intro st h; exact h
  | succ n ih =>
    intro st h
    rw [iterAttach]
    refine ih _ ?_
    have hs : (attach st.1 st.2 nid tid dateStr lid fname content).2
        = upsertDoc st.2 nid lid fname (docPath tid dateStr fname) := rfl
    rw [hs, countDocKey_upsertDoc, h]
    rfl

/-- Claim C7: attaching a file derives the deterministic key
`task_{taskId}/{date}/{filename}`; one attach makes the blob at that key hold
the uploaded content and makes the docs-row count for `(logId, path)` equal
`max 1 (previous count)` — so re-attaching overwrites the content and, from a
fresh state, any number of identical attach calls leaves exactly one Document
row for that key. -/
theorem attach_deterministic_upsert (bs : BlobStore) (docs : List DocRow)
    (nid tid : Nat) (dateStr : String) (lid : Nat) (fname : String)
    (content : List Nat) :
    docPath tid dateStr fname = "task_" ++ toString tid ++ "/" ++ dateStr ++ "/" ++ fname ∧
    blobLookup (attach bs docs nid tid dateStr lid fname content).1
        (docPath tid dateStr fname) = some content ∧
    countDocKey (attach bs docs nid tid dateStr lid fname content).2 lid
        (docPath tid dateStr fname) = max 1 (countDocKey docs lid (docPath tid dateStr fname)) ∧
    (countDocKey docs lid (docPath tid dateStr fname) = 0 → ∀ n : Nat,
      countDocKey (iterAttach nid tid dateStr lid fname content (n + 1) (bs, docs)).2 lid
        (docPath tid dateStr fname) = 1) := by
  refine ⟨rfl, blobLookup_blobUpload _ _ _, countDocKey_upsertDoc _ _ _ _ _, ?_⟩
  intro h0 n
  rw [iterAttach]
  refine iterAttach_keeps_one nid tid dateStr lid fname content n _ ?_
  have hs : (attach bs docs nid tid dateStr lid fname content).2
      = upsertDoc docs nid lid fname (docPath tid dateStr fname) := rfl
  rw [hs, countDocKey_upsertDoc, h0]
  rfl

/-- Witness for C7: two identical attaches on an empty state leave exactly one
docs row and the blob holding the (second) uploaded content. -/
theorem attach_deterministic_upsert_witness :
    countDocKey (iterAttach 9 1 "2024-01-02" 4 "r.pdf" [7, 7] 2 ([], [])).2 4
        (docPath 1 "2024-01-02" "r.pdf") = 1 ∧
    blobLookup (attach [] [] 9 1 "2024-01-02" 4 "r.pdf" [7, 7]).1
        (docPath 1 "2024-01-02" "r.pdf") = some [7, 7] := by
  have h := attach_deterministic_upsert [] [] 9 1 "2024-01-02" 4 "r.pdf" [7, 7]
  exact ⟨h.2.2.2 (by decide) 1, h.2.1⟩

/-- What the Documents tab produces for one document row: either the
downloaded bytes or a public-URL fallback link. -/
inductive FetchResult
  | bytes (content : List Nat)
  | fallbackUrl (url : String)
deriving Repr, DecidableEq

/-- Models the external `storage.get_public_url(path)` call (src/app.py line
226): a URL derived from the bucket and the stored path. -/
def getPublicUrl (bucket p : String) : String :=
  bucket ++ "/" ++ p

/-- The download-or-fallback logic of the Documents tab (src/app.py lines
216-227): try `storage.download(d["path"])`; when it raises, render a
public-URL link for the same path instead. -/
def fetchDoc (bs : BlobStore) (bucket : String) (d : DocRow) : FetchResult :=
  match blobLookup bs d.path with
  | some content => FetchResult.bytes content
  | none => FetchResult.fallbackUrl (getPublicUrl bucket d.path)

/-- Counterexample to C8 as stated: with the Document metadata row present but
its path absent from the Blob Store, the code does not fail with `NotFound` —
it renders a public-URL fallback link for the stored path. -/
theorem fetchDoc_no_notfound :
    fetchDoc [] "task-files" ⟨1, 1, "r.pdf", "task_1/2024-01-02/r.pdf"⟩
      = FetchResult.fallbackUrl "task-files/task_1/2024-01-02/r.pdf" := by
  rfl

/-- Claim C8 (amended): `fetch` returns the bytes stored in the Blob Store at
the Document's stored path when the path is present; when the path is missing
even though the metadata exists, the code falls back to a public URL for that
path instead of failing with `NotFound`. -/
theorem fetchDoc_fallback (bs : BlobStore) (bucket : String) (d : DocRow) :
    (∀ c, blobLookup bs d.path = some c → fetchDoc bs bucket d = FetchResult.bytes c) ∧
    (blobLookup bs d.path = none →
      fetchDoc bs bucket d = FetchResult.fallbackUrl (getPublicUrl bucket d.path)) := by
  constructor
  · intro c hc
    rw [fetchDoc, hc]
  · intro hc
    rw [fetchDoc, hc]

/-- Witness for C8 (amended) on a one-entry Blob Store and on an empty one. -/
theorem fetchDoc_fallback_witness :
    fetchDoc [("task_2/2024-01-03/a.txt", [1, 2, 3])] "task-files"
        ⟨1, 1, "a.txt", "task_2/2024-01-03/a.txt"⟩ = FetchResult.bytes [1, 2, 3] ∧
    fetchDoc [] "task-files" ⟨2, 1, "b.txt", "task_2/2024-01-03/b.txt"⟩
      = FetchResult.fallbackUrl "task-files/task_2/2024-01-03/b.txt" := by
  have ha := fetchDoc_fallback [("task_2/2024-01-03/a.txt", [1, 2, 3])] "task-files"
    ⟨1, 1, "a.txt", "task_2/2024-01-03/a.txt"⟩
  have hb := fetchDoc_fallback [] "task-files" ⟨2, 1, "b.txt", "task_2/2024-01-03/b.txt"⟩
  exact ⟨ha.1 [1, 2, 3] (by decide), hb.2 (by decide)⟩

-- ### Rename and recency ordering (src/app.py lines 73, 114-121, 157-163)

/-- The whole persisted state: the three Data Store tables. -/
structure Store where
  tasks : List TaskRow
  logs : LogsTable
  docs : List DocRow
deriving Repr, DecidableEq

/-- `tasks.update({"task_name": new_name.strip()}).eq("id", task_id)`
(src/app.py line 118): rewrites only the `task_name` column of the matching
rows. -/
def renameTask (tasks : List TaskRow) (tid : Nat) (newName : String) : List TaskRow :=
  tasks.map (fun t => if t.id == tid then { t with task_name := newName.trim } else t)

/-- The Edit-task-name handler (src/app.py lines 114-121): it issues exactly
the one `tasks` update, touching no `logs` or `docs` row. -/
def renameHandler (s : Store) (tid : Nat) (newName : String) : Store :=
  { s with tasks := renameTask s.tasks tid newName }

/-- `tasks.update({"updated_at": "now()"}).eq("id", task_id)`
(src/app.py line 161): set the task's `updated_at` to the current time. -/
def touchTask (tasks : List TaskRow) (tid : Nat) (now : Nat) : List TaskRow :=
  tasks.map (fun t => if t.id == tid then { t with updated_at := now } else t)

/-- The Save-progress handler (src/app.py lines 157-163): write the log row,
then bump the task's `updated_at`. -/
def saveProgressHandler (s : Store) (nid tid : Nat) (d : Int)
    (notes : String) (pct : Int) (now : Nat) : Store :=
  { s with logs := dailyUpdateSave s.logs nid tid d (some notes) (some pct),
           tasks := touchTask s.tasks tid now }

/-- The task listing (src/app.py line 73):
`tasks.select("*").order("updated_at", desc=True)` — task ids in descending
`updated_at` order (stable sort). -/
def taskListing (tasks : List TaskRow) : List Nat :=
  (tasks.insertionSort (fun a b => b.updated_at ≤ a.updated_at)).map (fun t => t.id)

theorem orderedInsert_map_of_key (f : TaskRow → TaskRow)
    (hkey : ∀ t, (f t).updated_at = t.updated_at) (a : TaskRow) :
    ∀ l : List TaskRow,
    List.orderedInsert (fun x y => y.updated_at ≤ x.updated_at) (f a) (l.map f)
      = (List.orderedInsert (fun x y => y.updated_at ≤ x.updated_at) a l).map f := by
  intro l
  induction l with
  | nil => rfl
  | cons b l ih =>
    simp only [List.map_cons, List.orderedInsert, hkey]
    by_cases h : b.updated_at ≤ a.updated_at
    · rw [if_pos h, if_pos h, List.map_cons, List.map_cons]
    · rw [if_neg h, if_neg h, List.map_cons, ih]

theorem insertionSort_map_of_key (f : TaskRow → TaskRow)
    (hkey : ∀ t, (f t).updated_at = t.updated_at) :
    ∀ l : List TaskRow,
    (l.map f).insertionSort (fun x y => y.updated_at ≤ x.updated_at)
      = (l.insertionSort (fun x y => y.updated_at ≤ x.updated_at)).map f := by
  intro l
  induction l with
  | nil => rfl
  | cons a l ih =>
    rw [List.map_cons, List.insertionSort, List.insertionSort, ih,
      orderedInsert_map_of_key f hkey]

/-- Claim C10: renaming a task rewrites only `task_name` — every task's id,
start, end and `updated_at` are unchanged, no `logs` or `docs` row is touched,
and the recency-ordered task listing (sorted by `updated_at`) is identical —
whereas saving progress sets the task's `updated_at` to the current time. -/
theorem rename_frame (s : Store) (tid : Nat) (newName : String)
    (nid tid2 : Nat) (d : Int) (notes : String) (pct : Int) (now : Nat) :
    ((renameHandler s tid newName).tasks.map
        (fun t => (t.id, t.start_date, t.end_date, t.updated_at))
      = s.tasks.map (fun t => (t.id, t.start_date, t.end_date, t.updated_at))) ∧
    (renameHandler s tid newName).logs = s.logs ∧
    (renameHandler s tid newName).docs = s.docs ∧
    taskListing (renameHandler s tid newName).tasks = taskListing s.tasks ∧
    (∀ t : TaskRow, s.tasks.find? (fun x => x.id == tid2) = some t →
      ((saveProgressHandler s nid tid2 d notes pct now).tasks.find?
          (fun x => x.id == tid2)).map (fun x => x.updated_at) = some now) := by
  have hkey : ∀ t : TaskRow,
      ((fun t => if t.id == tid then { t with task_name := newName.trim } else t) t).updated_at
        = t.updated_at := by
    intro t
    by_cases h : t.id == tid
    · simp [h]
    · simp [h]
  refine ⟨?_, rfl, rfl, ?_, ?_⟩
  · simp only [renameHandler, renameTask, List.map_map]
    refine List.map_congr_left ?_
    intro t _
    by_cases h : t.id == tid
    · simp [Function.comp, h]
    · simp [Function.comp, h]
  · show taskListing (s.tasks.map _) = taskListing s.tasks
    rw [taskListing, taskListing, insertionSort_map_of_key _ hkey, List.map_map]
    refine List.map_congr_left ?_
    intro t _
    by_cases h : t.id == tid
    · simp [Function.comp, h]
    · simp [Function.comp, h]
  · intro t hfind
    simp only [saveProgressHandler, touchTask]
    rw [List.find?_map]
    have hcomp : ((fun (x : TaskRow) => x.id == tid2) ∘ fun (t : TaskRow) =>
        if t.id == tid2 then { t with updated_at := now } else t)
        = fun (x : TaskRow) => x.id == tid2 := by
      funext u
      by_cases h : u.id == tid2
      · simp [Function.comp, h]
      · simp [Function.comp, h]
    rw [hcomp, hfind]
    have hid : (t.id == tid2) = true := by
      have h2 := List.find?_some hfind
      simpa using h2
    rw [beq_iff_eq] at hid
    simp [Option.map_map, Function.comp, hid]

/-- The concrete two-task store for the C10 witness. -/
def demoStore : Store where
  tasks := [⟨1, "alpha", 0, 2, 10⟩, ⟨2, "beta", 0, 2, 5⟩]
  logs := [⟨1, 2, 0, "", 0⟩]
  docs := []

/-- Witness for C10: renaming keeps the listing order; saving progress on
task 2 sets its `updated_at` to the given time. -/
theorem rename_frame_witness :
    taskListing (renameHandler demoStore 1 "renamed").tasks = taskListing demoStore.tasks ∧
    ((saveProgressHandler demoStore 7 2 0 "n" 80 99).tasks.find?
        (fun x => x.id == 2)).map (fun x => x.updated_at) = some 99 := by
  have h := rename_frame demoStore 1 "renamed" 7 2 0 "n" 80 99
  exact ⟨h.2.2.2.1, h.2.2.2.2 ⟨2, "beta", 0, 2, 5⟩ (by decide)⟩
